import Mathlib

/-!
Verification of the Mocha test-block parser and grep-pattern synthesizer
(`src/testParser.ts`).  Strings are modelled as `List Char`; a document is
the raw text, split into lines on the newline character exactly as
`text.split('\n')` does.  The anchored declaration regex
`/^\s*(describe|it)(?:\.(only|skip))?\s*\(\s*(['"`])(.+?)\3/` is modelled
by the deterministic matcher `matchTestPattern` below: because the pattern
is anchored at the line start, because whitespace can never begin a
keyword, a modifier, a parenthesis or a quote, and because the two
alternatives `describe`/`it` start with distinct letters, the regex engine's
backtracking search has exactly one viable path, which the matcher follows.
-/

/-- The two kinds of test block, mirroring `type: 'describe' | 'it'`. -/
inductive BlockType : Type where
  | describe : BlockType
  | it : BlockType
deriving DecidableEq, Repr

/-- A discovered test declaration, mirroring the `TestBlock` interface:
`type`, `name`, `line`, `column`, `fullName`, and an optional `parent`
reference to the nearest enclosing describe block (the reference is
modelled structurally: the parent block value is embedded). -/
inductive TestBlock : Type where
  | mk : BlockType → List Char → Nat → Nat → List Char → Option TestBlock → TestBlock

/-- Projection for the `type` field. -/
def TestBlock.type : TestBlock → BlockType
  | .mk t _ _ _ _ _ => t

/-- Projection for the `name` field. -/
def TestBlock.name : TestBlock → List Char
  | .mk _ n _ _ _ _ => n

/-- Projection for the `line` field. -/
def TestBlock.line : TestBlock → Nat
  | .mk _ _ l _ _ _ => l

/-- Projection for the `column` field. -/
def TestBlock.column : TestBlock → Nat
  | .mk _ _ _ c _ _ => c

/-- Projection for the `fullName` field. -/
def TestBlock.fullName : TestBlock → List Char
  | .mk _ _ _ _ f _ => f

/-- Projection for the `parent` field. -/
def TestBlock.parent : TestBlock → Option TestBlock
  | .mk _ _ _ _ _ p => p

/-- JavaScript's `\s` character class (the whitespace set used both by the
declaration regex and by `line.search(/\S/)`). -/
def isWs (c : Char) : Bool :=
  c.toNat ∈ [0x20, 0x09, 0x0A, 0x0B, 0x0C, 0x0D, 0xA0, 0x1680,
              0x2028, 0x2029, 0x202F, 0x205F, 0x3000, 0xFEFF] ||
  (decide (0x2000 ≤ c.toNat) && decide (c.toNat ≤ 0x200A))

/-- The characters matched by `.` in a JavaScript regex without the `s`
flag: everything except the four line terminators. -/
def isDotChar (c : Char) : Bool :=
  !(c.toNat ∈ [0x0A, 0x0D, 0x2028, 0x2029])

/-- The three quote characters accepted by the capture group: single
quote (code 39), double quote (code 34) and backtick (code 96). -/
def isQuote (c : Char) : Bool :=
  c.toNat = 39 || c.toNat = 34 || c.toNat = 96

/-- The keyword spelled out, for stating theorems about declaration lines. -/
def kwString : BlockType → List Char
  | .describe => ['d', 'e', 's', 'c', 'r', 'i', 'b', 'e']
  | .it => ['i', 't']

/-- The alternation `(describe|it)`: recognize one of the two keywords at
the head of `r` and return it with the remainder. -/
def matchKeyword (r : List Char) : Option (BlockType × List Char) :=
  if r.take 8 = kwString .describe then some (.describe, r.drop 8)
  else if r.take 2 = kwString .it then some (.it, r.drop 2)
  else none

/-- The optional modifier group `(?:\.(only|skip))?`: consume `.only` or
`.skip` if present.  When the head is a `.` not starting one of the two
modifiers, leaving `r` unchanged makes the subsequent `\(` check fail,
exactly as the regex's empty alternative does. -/
def stripModifier (r : List Char) : List Char :=
  if r.take 5 = ['.', 'o', 'n', 'l', 'y'] then r.drop 5
  else if r.take 5 = ['.', 's', 'k', 'i', 'p'] then r.drop 5
  else r

/-- Scan for the closing quote `\3`: return the characters before the
first occurrence of `q`, failing if `q` never occurs or a character that
`.` cannot match intervenes. -/
def scanToQuote (q : Char) : List Char → Option (List Char)
  | [] => none
  | c :: cs =>
    if c = q then some []
    else if isDotChar c then (scanToQuote q cs).map (fun l => c :: l)
    else none

/-- The lazy capture `(.+?)\3`: at least one character, up to the first
closing quote.  The first character is consumed unconditionally (it may
itself be the quote character), matching the lazy engine's smallest
viable match of length at least one. -/
def matchLabel (q : Char) : List Char → Option (List Char)
  | [] => none
  | c :: cs => if isDotChar c then (scanToQuote q cs).map (fun l => c :: l) else none

/-- After `\(`: skip `\s*`, then require a quote character and a label. -/
def afterParen (kw : BlockType) (r : List Char) : Option (BlockType × List Char) :=
  match r.dropWhile isWs with
  | q :: r6 =>
    if isQuote q then (matchLabel q r6).map (fun lbl => (kw, lbl)) else none
  | [] => none

/-- After the keyword: the optional modifier, `\s*`, then `\(`. -/
def afterKeyword (kw : BlockType) (r : List Char) : Option (BlockType × List Char) :=
  match (stripModifier r).dropWhile isWs with
  | '(' :: r4 => afterParen kw r4
  | _ => none

/-- `line.match(testPattern)` reduced to the two capture groups that the
parser destructures: the keyword (group 1) and the test name (group 4).
Returns `none` exactly when the anchored regex does not match the line. -/
def matchTestPattern (line : List Char) : Option (BlockType × List Char) :=
  match matchKeyword (line.dropWhile isWs) with
  | some (kw, r1) => afterKeyword kw r1
  | none => none

/-- `line.search(/\S/)`: the index of the first non-whitespace character.
(The TypeScript call returns -1 on all-whitespace lines; the parser only
reads the value on lines where the declaration pattern matched, which
forces a non-whitespace character, and there the two agree.) -/
def indentOf (line : List Char) : Nat :=
  (line.takeWhile isWs).length

/-- `names.join(' ')` / `parts.join(' ')`. -/
def joinSpace : List (List Char) → List Char
  | [] => []
  | [x] => x
  | x :: xs => x ++ ' ' :: joinSpace xs

/-- The labels of the chain walked by `buildFullTestName`/`buildGrepPattern`:
this block's ancestors outermost-first, then the block itself. -/
def TestBlock.chainLabels : TestBlock → List (List Char)
  | .mk _ n _ _ _ none => [n]
  | .mk _ n _ _ _ (some p) => p.chainLabels ++ [n]

/-- `buildFullTestName(parent, testName)`: walk the parent chain collecting
names outermost-first, append `testName`, and join with single spaces. -/
def buildFullTestName (parent : Option TestBlock) (testName : List Char) : List Char :=
  match parent with
  | none => joinSpace [testName]
  | some p => joinSpace (p.chainLabels ++ [testName])

/-- The stack pop `while (parentStack.top.indent >= indent) pop()`. -/
def popStack (stack : List (TestBlock × Nat)) (indent : Nat) : List (TestBlock × Nat) :=
  stack.dropWhile (fun e => decide (indent ≤ e.2))

/-- The line loop of `parseWithRegex`: the stack holds the currently open
describe blocks paired with their indent, innermost first. -/
def parseLines : List (List Char) → Nat → List (TestBlock × Nat) → List TestBlock
  | [], _, _ => []
  | line :: rest, lineNum, stack =>
    match matchTestPattern line with
    | none => parseLines rest (lineNum + 1) stack
    | some (kw, testName) =>
      let indent := indentOf line
      let stack2 := popStack stack indent
      let parent := stack2.head?.map (fun e => e.1)
      let block : TestBlock :=
        .mk kw testName lineNum indent (buildFullTestName parent testName) parent
      let stack3 := match kw with
        | .describe => (block, indent) :: stack2
        | .it => stack2
      block :: parseLines rest (lineNum + 1) stack3

/-- Run the parser over an explicit list of lines (starting with line
number 0 and an empty parent stack, as `parseWithRegex` does). -/
def parseAllLines (lines : List (List Char)) : List TestBlock :=
  parseLines lines 0 []

/-- `text.split('\n')`: note that the split of the empty text is a single
empty line, exactly as in JavaScript. -/
def splitLines : List Char → List (List Char)
  | [] => [[]]
  | c :: cs =>
    if c = '\n' then [] :: splitLines cs
    else match splitLines cs with
      | [] => [[c]]
      | l :: ls => (c :: l) :: ls

/-- `parseDocument`: split the document text into lines and run the
regex-based line parser; this is the spec's `extract`. -/
def parseDocument (text : List Char) : List TestBlock :=
  parseAllLines (splitLines text)

/-- The special-character set of `escapeRegex`'s character class
`[.*+?^${}()|[\]\\]`. -/
def specialChars : List Char :=
  ['.', '*', '+', '?', '^', '$', '\x7b', '\x7d', '(', ')', '|', '[', ']', '\\']

/-- `escapeRegex`: prefix every special character with a backslash
(`str.replace(/[.*+?^${}()|[\]\\]/g, '\\$&')`). -/
def escapeRegex : List Char → List Char
  | [] => []
  | c :: cs => (if c ∈ specialChars then ['\\', c] else [c]) ++ escapeRegex cs

/-- The escaped chain collected by `buildGrepPattern`'s walk: each label of
the ancestor chain (including the block itself), escaped, outermost first. -/
def TestBlock.grepParts : TestBlock → List (List Char)
  | .mk _ n _ _ _ none => [escapeRegex n]
  | .mk _ n _ _ _ (some p) => p.grepParts ++ [escapeRegex n]

/-- `buildGrepPattern`: anchor the escaped space-joined chain with `^`,
and additionally with a trailing `$` for `it` blocks. -/
def buildGrepPattern (b : TestBlock) : List Char :=
  match b.type with
  | .it => '^' :: (joinSpace b.grepParts ++ ['$'])
  | .describe => '^' :: joinSpace b.grepParts

/-- Wellformedness of a block's stored `fullName` relative to its parent
chain: the recursion that `parseWithRegex` establishes by construction. -/
def ConsistentP : TestBlock → Prop
  | .mk _ n _ _ f none => f = n
  | .mk _ n _ _ f (some p) => f = p.fullName ++ ' ' :: n ∧ ConsistentP p

/-- Scenario input: outer describe, inner describe, one test case. -/
def c5text : List Char :=
  "describe(\"OuterClass\", () =>\n  describe(\"InnerClass\", () =>\n    it(\"should work\", () =>".toList

/-- The outer suite block recognized in `c5text`. -/
def c5b0 : TestBlock := .mk .describe "OuterClass".toList 0 0 "OuterClass".toList none

/-- The inner suite block recognized in `c5text`. -/
def c5b1 : TestBlock :=
  .mk .describe "InnerClass".toList 1 2 "OuterClass InnerClass".toList (some c5b0)

/-- The test case block recognized in `c5text`. -/
def c5b2 : TestBlock :=
  .mk .it "should work".toList 2 4 "OuterClass InnerClass should work".toList (some c5b1)

/-- Scenario input: two sibling top-level suites, each with one case. -/
def s4text : List Char :=
  "describe(\"First\", () =>\n  it(\"a\"\ndescribe(\"Second\", () =>\n  it(\"b\"".toList

/-- The first suite block recognized in `s4text`. -/
def s4b0 : TestBlock := .mk .describe "First".toList 0 0 "First".toList none

/-- The case block under the first suite in `s4text`. -/
def s4b1 : TestBlock := .mk .it "a".toList 1 2 "First a".toList (some s4b0)

/-- The second suite block recognized in `s4text`: its parent is `none`,
not the first suite. -/
def s4b2 : TestBlock := .mk .describe "Second".toList 2 0 "Second".toList none

/-- The case block under the second suite in `s4text`. -/
def s4b3 : TestBlock := .mk .it "b".toList 3 2 "Second b".toList (some s4b2)

/-- A suite whose label ends in a dollar sign. -/
def dollarSuite : TestBlock := .mk .describe "a$".toList 0 0 "a$".toList none

/-- A two-block document used to witness the parent-chain invariants. -/
def c1text : List Char := "describe(\"a\", () =>\n  it(\"b\"".toList

/-- The suite block recognized in `c1text`. -/
def c1A : TestBlock := .mk .describe "a".toList 0 0 "a".toList none

/-- The case block recognized in `c1text`. -/
def c1B : TestBlock := .mk .it "b".toList 1 2 "a b".toList (some c1A)

/-! ## Helper lemmas -/

theorem joinSpace_append_single (xs : List (List Char)) (y : List Char) (h : xs ≠ []) :
    joinSpace (xs ++ [y]) = joinSpace xs ++ ' ' :: y := by
  induction xs with
  | nil => exact absurd rfl h
  | cons x xs ih =>
    cases xs with
    | nil => rfl
    | cons z zs =>
      have ih2 := ih (by simp)
      calc joinSpace ((x :: z :: zs) ++ [y])
          = x ++ ' ' :: joinSpace ((z :: zs) ++ [y]) := rfl
        _ = x ++ ' ' :: (joinSpace (z :: zs) ++ ' ' :: y) := by rw [ih2]
        _ = joinSpace (x :: z :: zs) ++ ' ' :: y := by
            simp [joinSpace, List.append_assoc]

theorem chainLabels_ne_nil (b : TestBlock) : b.chainLabels ≠ [] := by
  cases b with
  | mk t n l c f p =>
    cases p <;> simp [TestBlock.chainLabels]

theorem consistent_fullName : ∀ b : TestBlock, ConsistentP b →
    b.fullName = joinSpace b.chainLabels
  | .mk _ n _ _ f none, h => by
    simpa [TestBlock.fullName, TestBlock.chainLabels, joinSpace] using h
  | .mk _ n _ _ f (some p), h => by
    obtain ⟨h1, h2⟩ := h
    have ih := consistent_fullName p h2
    simp only [TestBlock.fullName, TestBlock.chainLabels]
    rw [joinSpace_append_single _ _ (chainLabels_ne_nil p), h1, ih]

theorem grepParts_eq_map : ∀ b : TestBlock,
    b.grepParts = b.chainLabels.map escapeRegex
  | .mk _ n _ _ _ none => by simp [TestBlock.grepParts, TestBlock.chainLabels]
  | .mk _ n _ _ _ (some p) => by
    simp [TestBlock.grepParts, TestBlock.chainLabels, grepParts_eq_map p]

/-! ## Claims -/

/-- C3: `escapeRegex` maps any string to itself except that each of the
characters `. * + ? ^ $ { } ( ) | [ ] \` is prefixed with one backslash
and every other character passes through unchanged; consequently, for a
Case block labelled "should handle [special] chars" nested under a Suite
labelled "MyClass (with parens)" (whatever its positions and stored full
names), `buildGrepPattern` returns exactly
`^MyClass \(with parens\) should handle \[special\] chars$`. -/
theorem escapeRegex_spec_and_scenario :
    (∀ s : List Char, escapeRegex s =
      s.flatMap (fun c =>
        if c ∈ ['.', '*', '+', '?', '^', '$', '\x7b', '\x7d', '(', ')', '|', '[', ']', '\\']
        then ['\\', c] else [c])) ∧
    (∀ (l₁ c₁ l₂ c₂ : Nat) (f₁ f₂ : List Char),
      buildGrepPattern (.mk .it "should handle [special] chars".toList l₂ c₂ f₂
          (some (.mk .describe "MyClass (with parens)".toList l₁ c₁ f₁ none))) =
        "^MyClass \\(with parens\\) should handle \\[special\\] chars$".toList) := by
  constructor
  · intro s
    induction s with
    | nil => rfl
    | cons c cs ih => simp [escapeRegex, specialChars, ih]
  · intro l₁ c₁ l₂ c₂ f₁ f₂
    rfl

/-- C5: on the document with an outer describe "OuterClass" containing an
inner describe "InnerClass" containing `it("should work", ...)`, `extract`
returns exactly three blocks in declaration order; the third is a Case
whose `fullName` is "OuterClass InnerClass should work" and whose parent
is the InnerClass Suite block. -/
theorem parseDocument_nested_scenario :
    parseDocument c5text = [c5b0, c5b1, c5b2] ∧
    c5b2.type = .it ∧
    c5b2.fullName = "OuterClass InnerClass should work".toList ∧
    c5b2.parent = some c5b1 :=
  ⟨rfl, rfl, rfl, rfl⟩

theorem parseLines_none (lines : List (List Char)) :
    ∀ (n : Nat) (stack : List (TestBlock × Nat)),
      (∀ l ∈ lines, matchTestPattern l = none) → parseLines lines n stack = [] := by
  induction lines with
  | nil => intro n stack _; rfl
  | cons l ls ih =>
    intro n stack h
    have hl : matchTestPattern l = none := h l (by simp)
    simp only [parseLines, hl]
    exact ih _ _ (fun x hx => h x (by simp [hx]))

/-- C7: `extract` never fails: the empty document and any document none of
whose lines matches the declaration pattern (for example a file containing
only `function foo() { return 42; }`) produce the empty sequence; lines
that do not match are silently skipped. -/
theorem parseDocument_total_empty :
    parseDocument [] = [] ∧
    (∀ text : List Char,
      (∀ l ∈ splitLines text, matchTestPattern l = none) → parseDocument text = []) ∧
    parseDocument "function foo() \x7b return 42; \x7d".toList = [] :=
  ⟨rfl, fun _ h => parseLines_none _ 0 [] h, rfl⟩

/-- Witness: the no-match theorem applied to a concrete non-test line. -/
theorem parseDocument_total_empty_witness :
    parseDocument "const x = 1;".toList = [] :=
  parseDocument_total_empty.2.1 _ (by decide)

theorem escapeRegex_ne_nil (n : List Char) (h : n ≠ []) : escapeRegex n ≠ [] := by
  cases n with
  | nil => exact absurd rfl h
  | cons c cs => by_cases hc : c ∈ specialChars <;> simp [escapeRegex, hc]

theorem escapeRegex_getLast : ∀ n : List Char,
    (escapeRegex n).getLast? = n.getLast? := by
  intro n
  induction n with
  | nil => rfl
  | cons c cs ih =>
    cases cs with
    | nil => by_cases hc : c ∈ specialChars <;> simp [escapeRegex, hc]
    | cons d ds =>
      have hne : escapeRegex (d :: ds) ≠ [] := escapeRegex_ne_nil _ (by simp)
      have h1 : escapeRegex (c :: d :: ds) =
          (if c ∈ specialChars then ['\\', c] else [c]) ++ escapeRegex (d :: ds) := rfl
      rw [h1, List.getLast?_append_of_ne_nil _ hne, ih, List.getLast?_cons_cons]

theorem grepParts_ne_nil (b : TestBlock) : b.grepParts ≠ [] := by
  rw [grepParts_eq_map]
  simpa using chainLabels_ne_nil b

theorem getLast?_cons_ne (a : Char) (l : List Char) (h : l ≠ []) :
    (a :: l).getLast? = l.getLast? := by
  cases l with
  | nil => exact absurd rfl h
  | cons b bs => exact List.getLast?_cons_cons

/-- C2 counterexample: a Suite whose own label ends in a dollar sign is
recognized by `extract`, and `buildGrepPattern` on it produces a string
whose last character is `$` (the escape `\$` still ends in the character
`$`), refuting "on a Suite block the result never ends with `$`". -/
theorem buildGrepPattern_dollar_cex :
    parseDocument "describe(\"a$\"".toList = [dollarSuite] ∧
    dollarSuite.type = .describe ∧
    (buildGrepPattern dollarSuite).getLast? = some '$' :=
  ⟨rfl, rfl, rfl⟩

/-- C2 (amended): `buildGrepPattern` returns the space-joined,
regex-escaped labels of the block's ancestor chain including the block
itself, prefixed with `^` and suffixed with `$` exactly when the block is
a Case; on a Case block the result always starts with `^` and ends with
`$`; on a Suite block it always starts with `^` and no `$` is appended,
so it ends with the character `$` only if the suite's own label already
ends with `$`. -/
theorem buildGrepPattern_spec : ∀ b : TestBlock,
    buildGrepPattern b =
      '^' :: (joinSpace (b.chainLabels.map escapeRegex) ++
        (if b.type = .it then ['$'] else [])) ∧
    (b.type = .it → (buildGrepPattern b).head? = some '^' ∧
      (buildGrepPattern b).getLast? = some '$') ∧
    (b.type = .describe → (buildGrepPattern b).head? = some '^' ∧
      ((buildGrepPattern b).getLast? = some '$' → b.name.getLast? = some '$')) := by
  intro b
  cases b with
  | mk t n l c f p =>
    refine ⟨?_, ?_, ?_⟩
    · cases t <;> simp [buildGrepPattern, TestBlock.type, grepParts_eq_map]
    · intro ht
      have ht' : t = .it := ht
      subst ht'
      constructor
      · rfl
      · show ('^' :: (joinSpace (TestBlock.mk .it n l c f p).grepParts ++ ['$'])).getLast?
          = some '$'
        rw [getLast?_cons_ne _ _ (by simp), List.getLast?_concat]
    · intro ht
      have ht' : t = .describe := ht
      subst ht'
      constructor
      · rfl
      · intro hlast
        have hpat : buildGrepPattern (TestBlock.mk .describe n l c f p) =
            '^' :: joinSpace (TestBlock.mk .describe n l c f p).grepParts := rfl
        rw [hpat] at hlast
        by_cases hJ : joinSpace (TestBlock.mk .describe n l c f p).grepParts = []
        · rw [hJ] at hlast
          exact absurd hlast (by decide)
        · rw [getLast?_cons_ne _ _ hJ] at hlast
          cases p with
          | none =>
            have hgp : (TestBlock.mk .describe n l c f none).grepParts =
                [escapeRegex n] := rfl
            rw [hgp] at hlast
            have : joinSpace [escapeRegex n] = escapeRegex n := rfl
            rw [this, escapeRegex_getLast] at hlast
            exact hlast
          | some q =>
            have hgp : (TestBlock.mk .describe n l c f (some q)).grepParts =
                q.grepParts ++ [escapeRegex n] := rfl
            rw [hgp, joinSpace_append_single _ _ (grepParts_ne_nil q),
              List.getLast?_append_of_ne_nil _ (by simp)] at hlast
            by_cases hn : n = []
            · subst hn
              exact absurd hlast (by decide)
            · rw [getLast?_cons_ne _ _ (escapeRegex_ne_nil n hn),
                escapeRegex_getLast] at hlast
              exact hlast

/-- Witness: the Case half of the amended pattern theorem at a concrete
block. -/
theorem buildGrepPattern_spec_witness :
    (buildGrepPattern (TestBlock.mk .it ['x'] 0 0 ['x'] none)).head? = some '^' ∧
    (buildGrepPattern (TestBlock.mk .it ['x'] 0 0 ['x'] none)).getLast? = some '$' :=
  (buildGrepPattern_spec (TestBlock.mk .it ['x'] 0 0 ['x'] none)).2.1 rfl

theorem parseLines_line_bounds (lines : List (List Char)) :
    ∀ (n : Nat) (stack : List (TestBlock × Nat)),
      List.Pairwise (fun a b => a.line < b.line) (parseLines lines n stack) ∧
      ∀ b ∈ parseLines lines n stack, n ≤ b.line := by
  induction lines with
  | nil => intro n stack; exact ⟨List.Pairwise.nil, by simp [parseLines]⟩
  | cons line rest ih =>
    intro n stack
    cases hm : matchTestPattern line with
    | none =>
      have he : parseLines (line :: rest) n stack = parseLines rest (n + 1) stack := by
        simp only [parseLines, hm]
      rw [he]
      exact ⟨(ih _ _).1, fun b hb => Nat.le_of_succ_le ((ih _ _).2 b hb)⟩
    | some pair =>
      obtain ⟨kw, nm⟩ := pair
      cases kw with
      | describe =>
        simp only [parseLines, hm]
        constructor
        · refine List.Pairwise.cons ?_ (ih _ _).1
          intro b hb
          have hnb := (ih _ _).2 b hb
          simpa [TestBlock.line] using Nat.lt_of_lt_of_le (Nat.lt_succ_self n) hnb
        · intro b hb
          rcases List.mem_cons.mp hb with hb | hb
          · subst hb; simp [TestBlock.line]
          · exact Nat.le_of_succ_le ((ih _ _).2 b hb)
      | it =>
        simp only [parseLines, hm]
        constructor
        · refine List.Pairwise.cons ?_ (ih _ _).1
          intro b hb
          have hnb := (ih _ _).2 b hb
          simpa [TestBlock.line] using Nat.lt_of_lt_of_le (Nat.lt_succ_self n) hnb
        · intro b hb
          rcases List.mem_cons.mp hb with hb | hb
          · subst hb; simp [TestBlock.line]
          · exact Nat.le_of_succ_le ((ih _ _).2 b hb)

/-- C9: `extract` produces at most one block per line: the returned
`line` values are strictly increasing (hence pairwise distinct), and a
line containing several declarations (a describe and an it) yields only
the block of its first match. -/
theorem parseDocument_one_block_per_line :
    (∀ text : List Char,
      List.Pairwise (fun a b => a.line < b.line) (parseDocument text)) ∧
    parseAllLines ["describe(\"a\", () => it(\"b\"))".toList] =
      [TestBlock.mk .describe ['a'] 0 0 ['a'] none] :=
  ⟨fun text => (parseLines_line_bounds (splitLines text) 0 []).1, rfl⟩

/-- C6: the sequence returned by `extract` is sorted by ascending
`sourceLine` (declaration order); since consecutive recognized lines in
fact carry strictly increasing line numbers, relative order of
equal-line blocks is vacuously stable. -/
theorem parseDocument_sorted_by_line (text : List Char) :
    List.Pairwise (fun a b => a.line ≤ b.line) (parseDocument text) :=
  ((parseLines_line_bounds (splitLines text) 0 []).1).imp Nat.le_of_lt

theorem popStack_mem (stack : List (TestBlock × Nat)) (i : Nat) :
    ∀ e ∈ popStack stack i, e ∈ stack := by
  intro e he
  exact (List.dropWhile_sublist _).subset he

theorem popStack_head (stack : List (TestBlock × Nat)) (i : Nat) :
    ∀ e, (popStack stack i).head? = some e → e.2 < i := by
  induction stack with
  | nil => intro e he; simp [popStack, List.dropWhile] at he
  | cons a t ih =>
    intro e he
    by_cases ha : i ≤ a.2
    · rw [show popStack (a :: t) i = popStack t i by
        simp [popStack, List.dropWhile, ha]] at he
      exact ih e he
    · rw [show popStack (a :: t) i = a :: t by
        simp [popStack, List.dropWhile, ha]] at he
      simp only [List.head?_cons, Option.some.injEq] at he
      subst he
      exact Nat.lt_of_not_le ha

theorem popStack_chain (stack : List (TestBlock × Nat)) (i : Nat)
    (h : List.Chain' (fun a b => b.2 < a.2) stack) :
    List.Chain' (fun a b => b.2 < a.2) (popStack stack i) := by
  induction stack with
  | nil => simp [popStack, List.dropWhile]
  | cons a t ih =>
    by_cases ha : i ≤ a.2
    · rw [show popStack (a :: t) i = popStack t i by
        simp [popStack, List.dropWhile, ha]]
      exact ih h.tail
    · rwa [show popStack (a :: t) i = a :: t by
        simp [popStack, List.dropWhile, ha]]

theorem parseLines_parent_col (lines : List (List Char)) :
    ∀ (n : Nat) (stack : List (TestBlock × Nat)),
      List.Chain' (fun a b => b.2 < a.2) stack →
      (∀ e ∈ stack, e.1.column = e.2) →
      ∀ b ∈ parseLines lines n stack, ∀ p, b.parent = some p → p.column < b.column := by
  induction lines with
  | nil => intro n stack _ _ b hb; simp [parseLines] at hb
  | cons line rest ih =>
    intro n stack hchain hcol b hb p hp
    cases hm : matchTestPattern line with
    | none =>
      rw [show parseLines (line :: rest) n stack = parseLines rest (n + 1) stack by
        simp only [parseLines, hm]] at hb
      exact ih _ _ hchain hcol b hb p hp
    | some pair =>
      obtain ⟨kw, nm⟩ := pair
      have hhead : ∀ e, (popStack stack (indentOf line)).head? = some e →
          e.1.column < indentOf line := by
        intro e he
        have h1 := popStack_head stack (indentOf line) e he
        have h2 := hcol e (popStack_mem _ _ e (List.mem_of_mem_head? he))
        omega
      have hchain2 : List.Chain' (fun a b => b.2 < a.2)
          (popStack stack (indentOf line)) := popStack_chain _ _ hchain
      have hcol2 : ∀ e ∈ popStack stack (indentOf line), e.1.column = e.2 :=
        fun e he => hcol e (popStack_mem _ _ e he)
      cases kw with
      | describe =>
        rw [show parseLines (line :: rest) n stack =
            (TestBlock.mk .describe nm n (indentOf line)
              (buildFullTestName ((popStack stack (indentOf line)).head?.map
                (fun e => e.1)) nm)
              ((popStack stack (indentOf line)).head?.map (fun e => e.1))) ::
            parseLines rest (n + 1)
              ((TestBlock.mk .describe nm n (indentOf line)
                (buildFullTestName ((popStack stack (indentOf line)).head?.map
                  (fun e => e.1)) nm)
                ((popStack stack (indentOf line)).head?.map (fun e => e.1)),
                indentOf line) :: popStack stack (indentOf line)) by
          simp only [parseLines, hm]] at hb
        rcases List.mem_cons.mp hb with hb | hb
        · subst hb
          simp only [TestBlock.parent, Option.map_eq_some'] at hp
          obtain ⟨e, he, hep⟩ := hp
          subst hep
          simpa [TestBlock.column] using hhead e he
        · refine ih _ _ ?_ ?_ b hb p hp
          · refine List.chain'_cons'.mpr ⟨?_, hchain2⟩
            intro y hy
            exact popStack_head stack (indentOf line) y hy
          · intro e he
            rcases List.mem_cons.mp he with he | he
            · subst he; rfl
            · exact hcol2 e he
      | it =>
        rw [show parseLines (line :: rest) n stack =
            (TestBlock.mk .it nm n (indentOf line)
              (buildFullTestName ((popStack stack (indentOf line)).head?.map
                (fun e => e.1)) nm)
              ((popStack stack (indentOf line)).head?.map (fun e => e.1))) ::
            parseLines rest (n + 1) (popStack stack (indentOf line)) by
          simp only [parseLines, hm]] at hb
        rcases List.mem_cons.mp hb with hb | hb
        · subst hb
          simp only [TestBlock.parent, Option.map_eq_some'] at hp
          obtain ⟨e, he, hep⟩ := hp
          subst hep
          simpa [TestBlock.column] using hhead e he
        · exact ih _ _ hchain2 hcol2 b hb p hp

/-- C4: every block returned by `extract` that has a parent has a parent
of strictly smaller `sourceColumn` (the ancestor stack is popped while its
top's indent is at least the current line's indent); in particular, on the
document with two equally indented top-level suites "First" and "Second",
the Second suite's parent is `none`, not the First suite. -/
theorem parseDocument_parent_column :
    (∀ (text : List Char) (b : TestBlock), b ∈ parseDocument text →
      ∀ p, b.parent = some p → p.column < b.column) ∧
    parseDocument s4text = [s4b0, s4b1, s4b2, s4b3] ∧
    s4b2.parent = none :=
  ⟨fun text b hb p hp =>
    parseLines_parent_col (splitLines text) 0 [] List.chain'_nil
      (fun e he => absurd he (List.not_mem_nil e)) b hb p hp,
    rfl, rfl⟩

/-- Witness: the parent-column theorem applied to the nested case block of
the two-suite scenario document. -/
theorem parseDocument_parent_column_witness : s4b0.column < s4b1.column :=
  parseDocument_parent_column.1 s4text s4b1
    (List.Mem.tail _ (List.Mem.head _)) s4b0 rfl

theorem parseLines_cons_some (line : List Char) (rest : List (List Char)) (n : Nat)
    (stack : List (TestBlock × Nat)) (kw : BlockType) (nm : List Char)
    (hm : matchTestPattern line = some (kw, nm)) :
    parseLines (line :: rest) n stack =
      TestBlock.mk kw nm n (indentOf line)
        (buildFullTestName ((popStack stack (indentOf line)).head?.map (fun e => e.1)) nm)
        ((popStack stack (indentOf line)).head?.map (fun e => e.1)) ::
      parseLines rest (n + 1)
        (match kw with
          | .describe =>
            (TestBlock.mk kw nm n (indentOf line)
              (buildFullTestName ((popStack stack (indentOf line)).head?.map
                (fun e => e.1)) nm)
              ((popStack stack (indentOf line)).head?.map (fun e => e.1)),
              indentOf line) :: popStack stack (indentOf line)
          | .it => popStack stack (indentOf line)) := by
  cases kw <;> simp only [parseLines, hm]

theorem consistent_step (stack : List (TestBlock × Nat)) (i : Nat) (nm : List Char)
    (hstack : ∀ e ∈ stack, ConsistentP e.1) :
    ∀ (kw : BlockType) (l c : Nat),
      ConsistentP (TestBlock.mk kw nm l c
        (buildFullTestName ((popStack stack i).head?.map (fun e => e.1)) nm)
        ((popStack stack i).head?.map (fun e => e.1))) := by
  intro kw l c
  cases hpar : (popStack stack i).head? with
  | none =>
    simp only [hpar, Option.map_none']
    show ConsistentP (TestBlock.mk kw nm l c (buildFullTestName none nm) none)
    show buildFullTestName none nm = nm
    rfl
  | some e =>
    have hce : ConsistentP e.1 :=
      hstack e (popStack_mem _ _ e (List.mem_of_mem_head? hpar))
    simp only [hpar, Option.map_some']
    show ConsistentP (TestBlock.mk kw nm l c (buildFullTestName (some e.1) nm) (some e.1))
    refine ⟨?_, hce⟩
    show buildFullTestName (some e.1) nm = e.1.fullName ++ ' ' :: nm
    show joinSpace (e.1.chainLabels ++ [nm]) = e.1.fullName ++ ' ' :: nm
    rw [joinSpace_append_single _ _ (chainLabels_ne_nil e.1),
      consistent_fullName e.1 hce]

theorem parseLines_consistent (lines : List (List Char)) :
    ∀ (n : Nat) (stack : List (TestBlock × Nat)),
      (∀ e ∈ stack, ConsistentP e.1) →
      ∀ b ∈ parseLines lines n stack, ConsistentP b := by
  induction lines with
  | nil => intro n stack _ b hb; simp [parseLines] at hb
  | cons line rest ih =>
    intro n stack hstack b hb
    cases hm : matchTestPattern line with
    | none =>
      rw [show parseLines (line :: rest) n stack = parseLines rest (n + 1) stack by
        simp only [parseLines, hm]] at hb
      exact ih _ _ hstack b hb
    | some pair =>
      obtain ⟨kw, nm⟩ := pair
      rw [parseLines_cons_some line rest n stack kw nm hm] at hb
      have hblock := consistent_step stack (indentOf line) nm hstack kw n (indentOf line)
      rcases List.mem_cons.mp hb with hb | hb
      · subst hb; exact hblock
      · cases kw with
        | describe =>
          refine ih _ _ ?_ b hb
          intro e he
          rcases List.mem_cons.mp he with he | he
          · subst he; exact hblock
          · exact hstack e (popStack_mem _ _ e he)
        | it =>
          exact ih _ _ (fun e he => hstack e (popStack_mem _ _ e he)) b hb

/-- C1: for every block returned by `extract`, the stored `fullName`
equals the space-joined labels of the block's full ancestor chain
(outermost ancestor down to the block itself); equivalently it equals the
parent's `fullName` followed by a space and the block's own label when a
parent exists, and the block's own label otherwise. -/
theorem parseDocument_fullName_consistent :
    ∀ (text : List Char) (b : TestBlock), b ∈ parseDocument text →
      b.fullName = joinSpace b.chainLabels ∧
      (∀ p, b.parent = some p → b.fullName = p.fullName ++ ' ' :: b.name) ∧
      (b.parent = none → b.fullName = b.name) := by
  intro text b hb
  have hc : ConsistentP b :=
    parseLines_consistent (splitLines text) 0 []
      (fun e he => absurd he (List.not_mem_nil e)) b hb
  refine ⟨consistent_fullName b hc, ?_, ?_⟩
  · intro p hp
    cases b with
    | mk t n l c f q =>
      cases q with
      | none => simp [TestBlock.parent] at hp
      | some p' =>
        simp only [TestBlock.parent, Option.some.injEq] at hp
        subst hp
        exact hc.1
  · intro hp
    cases b with
    | mk t n l c f q =>
      cases q with
      | none => exact hc
      | some p' => simp [TestBlock.parent] at hp

/-- Witness: the parent-chain equation at the nested case block of a
concrete two-line document. -/
theorem parseDocument_fullName_consistent_witness :
    c1B.fullName = c1A.fullName ++ ' ' :: c1B.name :=
  (parseDocument_fullName_consistent c1text c1B
    (List.Mem.tail _ (List.Mem.head _))).2.1 c1A rfl

theorem scanToQuote_dotChars (q : Char) : ∀ (cs pre : List Char),
    scanToQuote q cs = some pre → ∀ c ∈ pre, isDotChar c = true := by
  intro cs
  induction cs with
  | nil => intro pre h; simp [scanToQuote] at h
  | cons c cs ih =>
    intro pre h
    by_cases hc : c = q
    · simp only [scanToQuote, if_pos hc, Option.some.injEq] at h
      subst h
      intro d hdm
      simp at hdm
    · by_cases hd : isDotChar c
      · simp only [scanToQuote, if_neg hc, if_pos hd, Option.map_eq_some'] at h
        obtain ⟨l, hl, hpre⟩ := h
        subst hpre
        intro d hdm
        rcases List.mem_cons.mp hdm with hdm | hdm
        · subst hdm; exact hd
        · exact ih l hl d hdm
      · simp [scanToQuote, hc, hd] at h

theorem matchLabel_spec (q : Char) (r lbl : List Char)
    (h : matchLabel q r = some lbl) :
    lbl ≠ [] ∧ ∀ c ∈ lbl, isDotChar c = true := by
  cases r with
  | nil => simp [matchLabel] at h
  | cons c cs =>
    by_cases hd : isDotChar c
    · simp only [matchLabel, if_pos hd, Option.map_eq_some'] at h
      obtain ⟨l, hl, hlbl⟩ := h
      subst hlbl
      refine ⟨by simp, ?_⟩
      intro d hdm
      rcases List.mem_cons.mp hdm with hdm | hdm
      · subst hdm; exact hd
      · exact scanToQuote_dotChars q cs l hl d hdm
    · simp [matchLabel, hd] at h

theorem matchTestPattern_name (line : List Char) (kw : BlockType) (nm : List Char)
    (h : matchTestPattern line = some (kw, nm)) :
    nm ≠ [] ∧ ∀ c ∈ nm, isDotChar c = true := by
  simp only [matchTestPattern] at h
  split at h
  · next kw' r1 heq =>
    simp only [afterKeyword] at h
    split at h
    · next r4 heq2 =>
      simp only [afterParen] at h
      split at h
      · next q r6 heq3 =>
        split at h
        · simp only [Option.map_eq_some'] at h
          obtain ⟨lbl, hl, hpair⟩ := h
          have hnm : lbl = nm := congrArg Prod.snd hpair
          subst hnm
          exact matchLabel_spec q r6 lbl hl
        · exact absurd h (by simp)
      · exact absurd h (by simp)
    · exact absurd h (by simp)
  · exact absurd h (by simp)

theorem parseLines_names (lines : List (List Char)) :
    ∀ (n : Nat) (stack : List (TestBlock × Nat)),
      ∀ b ∈ parseLines lines n stack, b.name ≠ [] ∧ ∀ c ∈ b.name, isDotChar c = true := by
  induction lines with
  | nil => intro n stack b hb; simp [parseLines] at hb
  | cons line rest ih =>
    intro n stack b hb
    cases hm : matchTestPattern line with
    | none =>
      rw [show parseLines (line :: rest) n stack = parseLines rest (n + 1) stack by
        simp only [parseLines, hm]] at hb
      exact ih _ _ b hb
    | some pair =>
      obtain ⟨kw, nm⟩ := pair
      rw [parseLines_cons_some line rest n stack kw nm hm] at hb
      rcases List.mem_cons.mp hb with hb | hb
      · subst hb
        simpa [TestBlock.name] using matchTestPattern_name line kw nm hm
      · exact ih _ _ b hb

/-- C10: every block returned by `extract` has a non-empty label that
contains no newline (the label capture requires at least one character,
and matched characters exclude line terminators); in particular a
declaration whose quoted string literal is empty, such as
`describe("")` or `it("")` alone on a line, is not recognized. -/
theorem parseDocument_label_nonempty :
    (∀ (text : List Char) (b : TestBlock), b ∈ parseDocument text →
      b.name ≠ [] ∧ '\n' ∉ b.name) ∧
    parseAllLines ["describe(\"\")".toList] = [] ∧
    parseAllLines ["it(\"\")".toList] = [] := by
  refine ⟨?_, rfl, rfl⟩
  intro text b hb
  have h := parseLines_names (splitLines text) 0 [] b hb
  refine ⟨h.1, ?_⟩
  intro hmem
  have := h.2 '\n' hmem
  simp [isDotChar] at this

/-- Witness: label non-emptiness at the suite block of a concrete
document. -/
theorem parseDocument_label_nonempty_witness :
    TestBlock.name (TestBlock.mk .describe "q".toList 0 0 "q".toList none) ≠ [] ∧
    '\n' ∉ TestBlock.name (TestBlock.mk .describe "q".toList 0 0 "q".toList none) :=
  parseDocument_label_nonempty.1 "describe(\"q\", () =>".toList
    (TestBlock.mk .describe "q".toList 0 0 "q".toList none) (List.Mem.head _)

theorem dropWhile_ws_append (w r : List Char) (hw : ∀ c ∈ w, isWs c = true) :
    (w ++ r).dropWhile isWs = r.dropWhile isWs := by
  induction w with
  | nil => rfl
  | cons c cs ih =>
    have hc : isWs c = true := hw c (by simp)
    simp only [List.cons_append, List.dropWhile_cons, hc, if_true]
    exact ih (fun d hd => hw d (by simp [hd]))

theorem takeWhile_ws_append (w r : List Char) (hw : ∀ c ∈ w, isWs c = true) :
    (w ++ r).takeWhile isWs = w ++ r.takeWhile isWs := by
  induction w with
  | nil => rfl
  | cons c cs ih =>
    have hc : isWs c = true := hw c (by simp)
    simp only [List.cons_append, List.takeWhile_cons, hc, if_true,
      ih (fun d hd => hw d (by simp [hd]))]

theorem dropWhile_ws_kw (kw : BlockType) (X : List Char) :
    (kwString kw ++ X).dropWhile isWs = kwString kw ++ X := by
  cases kw
  · show List.dropWhile isWs ('d' :: (['e', 's', 'c', 'r', 'i', 'b', 'e'] ++ X)) = _
    rw [List.dropWhile_cons, if_neg (by decide)]
    rfl
  · show List.dropWhile isWs ('i' :: (['t'] ++ X)) = _
    rw [List.dropWhile_cons, if_neg (by decide)]
    rfl

theorem takeWhile_ws_kw (kw : BlockType) (X : List Char) :
    (kwString kw ++ X).takeWhile isWs = [] := by
  cases kw
  · show List.takeWhile isWs ('d' :: (['e', 's', 'c', 'r', 'i', 'b', 'e'] ++ X)) = _
    rw [List.takeWhile_cons, if_neg (by decide)]
  · show List.takeWhile isWs ('i' :: (['t'] ++ X)) = _
    rw [List.takeWhile_cons, if_neg (by decide)]

theorem indentOf_ws_kw (w : List Char) (hw : ∀ c ∈ w, isWs c = true)
    (kw : BlockType) (X : List Char) :
    indentOf (w ++ (kwString kw ++ X)) = w.length := by
  unfold indentOf
  rw [takeWhile_ws_append w _ hw, takeWhile_ws_kw, List.append_nil]

theorem matchKeyword_append (kw : BlockType) (X : List Char) :
    matchKeyword (kwString kw ++ X) = some (kw, X) := by
  cases kw
  · have ht : (kwString BlockType.describe ++ X).take 8 = kwString .describe :=
      List.take_left' rfl
    have hd : (kwString BlockType.describe ++ X).drop 8 = X := List.drop_left' rfl
    unfold matchKeyword
    rw [ht, if_pos rfl, hd]
  · have ht8 : (kwString BlockType.it ++ X).take 8 ≠ kwString .describe := by
      intro h
      rw [show kwString BlockType.it ++ X = 'i' :: ('t' :: X) from rfl,
        show (8 : Nat) = 7 + 1 from rfl, List.take_succ_cons] at h
      have : 'i' = 'd' := (List.cons.inj h).1
      exact absurd this (by decide)
    have ht2 : (kwString BlockType.it ++ X).take 2 = kwString .it := List.take_left' rfl
    have hd2 : (kwString BlockType.it ++ X).drop 2 = X := List.drop_left' rfl
    unfold matchKeyword
    rw [ht2, if_neg ht8, if_pos rfl, hd2]

theorem stripModifier_mod (m tail : List Char)
    (hm : m = ['.', 'o', 'n', 'l', 'y'] ∨ m = ['.', 's', 'k', 'i', 'p']) :
    stripModifier (m ++ tail) = tail := by
  rcases hm with rfl | rfl
  · have ht : (['.', 'o', 'n', 'l', 'y'] ++ tail).take 5 = ['.', 'o', 'n', 'l', 'y'] :=
      List.take_left' rfl
    have hd : (['.', 'o', 'n', 'l', 'y'] ++ tail).drop 5 = tail := List.drop_left' rfl
    unfold stripModifier
    rw [ht, if_pos rfl, hd]
  · have ht : (['.', 's', 'k', 'i', 'p'] ++ tail).take 5 = ['.', 's', 'k', 'i', 'p'] :=
      List.take_left' rfl
    have hd : (['.', 's', 'k', 'i', 'p'] ++ tail).drop 5 = tail := List.drop_left' rfl
    unfold stripModifier
    rw [ht, if_neg (by decide), if_pos rfl, hd]

theorem stripModifier_nodot (tail : List Char) (h : tail.head? ≠ some '.') :
    stripModifier tail = tail := by
  have hdot : ∀ (l : List Char), l.take 5 = '.' :: ('o' :: ('n' :: ('l' :: ['y']))) ∨
      l.take 5 = '.' :: ('s' :: ('k' :: ('i' :: ['p']))) → l.head? = some '.' := by
    intro l hl
    cases l with
    | nil => rcases hl with hl | hl <;> simp at hl
    | cons c cs =>
      rcases hl with hl | hl <;>
      · rw [show (5 : Nat) = 4 + 1 from rfl, List.take_succ_cons] at hl
        have hc : c = '.' := (List.cons.inj hl).1
        simp [hc]
  unfold stripModifier
  rw [if_neg (fun hx => h (hdot tail (Or.inl hx))),
    if_neg (fun hx => h (hdot tail (Or.inr hx)))]

theorem matchTestPattern_mod (w : List Char) (hw : ∀ c ∈ w, isWs c = true)
    (kw : BlockType) (m tail : List Char)
    (hm : m = ['.', 'o', 'n', 'l', 'y'] ∨ m = ['.', 's', 'k', 'i', 'p'])
    (ht : tail.head? ≠ some '.') :
    matchTestPattern (w ++ kwString kw ++ m ++ tail) =
      matchTestPattern (w ++ kwString kw ++ tail) := by
  have hd1 : (w ++ (kwString kw ++ (m ++ tail))).dropWhile isWs =
      kwString kw ++ (m ++ tail) := by
    rw [dropWhile_ws_append w _ hw, dropWhile_ws_kw]
  have hd2 : (w ++ (kwString kw ++ tail)).dropWhile isWs = kwString kw ++ tail := by
    rw [dropWhile_ws_append w _ hw, dropWhile_ws_kw]
  unfold matchTestPattern
  simp only [List.append_assoc]
  rw [hd1, hd2, matchKeyword_append, matchKeyword_append]
  show afterKeyword kw (m ++ tail) = afterKeyword kw tail
  unfold afterKeyword
  rw [stripModifier_mod m tail hm, stripModifier_nodot tail ht]

theorem indentOf_mod (w : List Char) (hw : ∀ c ∈ w, isWs c = true)
    (kw : BlockType) (m tail : List Char) :
    indentOf (w ++ kwString kw ++ m ++ tail) = indentOf (w ++ kwString kw ++ tail) := by
  have h1 : indentOf (w ++ (kwString kw ++ (m ++ tail))) = w.length :=
    indentOf_ws_kw w hw kw (m ++ tail)
  have h2 : indentOf (w ++ (kwString kw ++ tail)) = w.length :=
    indentOf_ws_kw w hw kw tail
  simp only [List.append_assoc]
  rw [h1, h2]

theorem parseLines_congr {l1 l2 : List (List Char)}
    (h : List.Forall₂ (fun a b => matchTestPattern a = matchTestPattern b ∧
      indentOf a = indentOf b) l1 l2) :
    ∀ (n : Nat) (stack : List (TestBlock × Nat)),
      parseLines l1 n stack = parseLines l2 n stack := by
  induction h with
  | nil => intro n stack; rfl
  | @cons a b as bs hab htail ih =>
    intro n stack
    obtain ⟨hm, hi⟩ := hab
    cases hmb : matchTestPattern b with
    | none =>
      rw [show parseLines (a :: as) n stack = parseLines as (n + 1) stack by
        simp only [parseLines, hm.trans hmb]]
      rw [show parseLines (b :: bs) n stack = parseLines bs (n + 1) stack by
        simp only [parseLines, hmb]]
      exact ih _ _
    | some pair =>
      obtain ⟨kw, nm⟩ := pair
      have ha : matchTestPattern a = some (kw, nm) := hm.trans hmb
      simp only [parseLines, ha, hmb, hi, ih]

theorem forall₂_refl_mid {α : Type} (R : α → α → Prop) (hrefl : ∀ x, R x x)
    (pre suf : List α) (a b : α) (hab : R a b) :
    List.Forall₂ R (pre ++ a :: suf) (pre ++ b :: suf) := by
  induction pre with
  | nil => exact List.Forall₂.cons hab (List.forall₂_same.mpr (fun x _ => hrefl x))
  | cons p ps ih => exact List.Forall₂.cons (hrefl p) ih

/-- C8: appending the modifier `.only` or `.skip` to the `describe` or
`it` keyword of a declaration line (whose argument part does not itself
start with a dot) changes nothing in the extracted model: the whole
parse of the surrounding document is identical, so the recognized block
has the same kind, label, qualified name and parent. -/
theorem parseAllLines_modifier (pre suf : List (List Char)) (w m tail : List Char)
    (kw : BlockType)
    (hw : ∀ c ∈ w, isWs c = true)
    (hm : m = ".only".toList ∨ m = ".skip".toList)
    (ht : tail.head? ≠ some '.') :
    parseAllLines (pre ++ (w ++ kwString kw ++ m ++ tail) :: suf) =
      parseAllLines (pre ++ (w ++ kwString kw ++ tail) :: suf) := by
  have hm' : m = ['.', 'o', 'n', 'l', 'y'] ∨ m = ['.', 's', 'k', 'i', 'p'] := by
    rcases hm with rfl | rfl
    · exact Or.inl rfl
    · exact Or.inr rfl
  exact parseLines_congr
    (forall₂_refl_mid _ (fun x => ⟨rfl, rfl⟩) pre suf _ _
      ⟨matchTestPattern_mod w hw kw m tail hm' ht, indentOf_mod w hw kw m tail⟩) 0 []

/-- Witness: `it.only("a")` parses identically to `it("a")`. -/
theorem parseAllLines_modifier_witness :
    parseAllLines ["it.only(\"a\")".toList] = parseAllLines ["it(\"a\")".toList] :=
  parseAllLines_modifier [] [] [] ".only".toList "(\"a\")".toList .it
    (by intro c hc; simp at hc) (Or.inl rfl) (by decide)
